import Mathlib

set_option maxHeartbeats 1000000

/-!
Verification of the directional window navigator (`sway-window-nav`).

The definitions below are a shallow embedding of
`src/sway-window-nav/src/main.rs`: `Coord`, `Node` and their comparators,
the explicit-stack leaf-collecting traversal of `main`, the focused-workspace
locator loop, the cyclic next/prev index computation and the command-string
construction.  Machine integers (`i32`, `i64`) are embedded as `Int`; the
values handled (screen coordinates, container ids) are far from the `i32`/`i64`
range limits, and none of the operations used (`<`, `=`, `-`) can overflow in
the source's domain, so no wrap-around modelling is needed.
-/

namespace SwayWindowNav

/-- Three-way comparison on `Int`, embedding Rust's `Ord::cmp` on `i32`. -/
def intCmp (a b : Int) : Ordering :=
  if a < b then .lt else if a = b then .eq else .gt

/-- A 2D integer point, `y` = 0 at top increasing downward, `x` = 0 at left
increasing rightward.  Embeds `struct Coord { x: i32, y: i32 }`. -/
structure Coord where
  x : Int
  y : Int
deriving DecidableEq, Repr

/-- Embeds `Coord::asc_above_or_right_of`:
`Equal` if the two coordinates are identical, `Less` if `a.y < b.y || a.x < b.x`,
`Greater` otherwise. -/
def Coord.asc_above_or_right_of (a b : Coord) : Ordering :=
  if a = b then .eq
  else if a.y < b.y ∨ a.x < b.x then .lt
  else .gt

/-- Reduced tree node, embedding `struct Node { id, name, focused, coords,
deco_coords, nodes }`. -/
inductive Node where
  | mk (id : Int) (name : Option String) (focused : Bool)
       (coords : Coord) (deco_coords : Coord) (nodes : List Node)

def Node.id : Node → Int
  | .mk i _ _ _ _ _ => i

def Node.name : Node → Option String
  | .mk _ nm _ _ _ _ => nm

def Node.focused : Node → Bool
  | .mk _ _ f _ _ _ => f

def Node.coords : Node → Coord
  | .mk _ _ _ c _ _ => c

def Node.deco_coords : Node → Coord
  | .mk _ _ _ _ d _ => d

def Node.nodes : Node → List Node
  | .mk _ _ _ _ _ ns => ns

/-- Embeds `Node::asc_above_or_right_of`: the coordinate comparison reversed
(`.reverse()` = `Ordering.swap`), then the decoration-x tie-break
`b.deco_coords.x.cmp(&a.deco_coords.x)`. -/
def Node.asc_above_or_right_of (a b : Node) : Ordering :=
  (Coord.asc_above_or_right_of a.coords b.coords).swap.then
    (intCmp b.deco_coords.x a.deco_coords.x)

/-- One insertion step of Rust's small-slice insertion sort, working on the
reversed sorted prefix (head = rightmost element): the new element `a` moves
left past every element `p` with `cmp a p = .lt` and stops at the first other
outcome, exactly as `slice::sort_unstable_by`'s insertion loop swaps while
`is_less(v[j], v[j-1])`. -/
def insRev {α : Type} (cmp : α → α → Ordering) (a : α) : List α → List α
  | [] => [a]
  | p :: rl => if cmp a p = .lt then p :: insRev cmp a rl else a :: p :: rl

/-- Embeds `sort_unstable_by`: elements are taken left to right and inserted
into the sorted prefix by the shift-while-less rule (`insRev`); this is the
insertion sort Rust applies to small slices, and fixes the behaviour of the
source on comparator-inconsistent inputs the way the actual library does. -/
def sortRust {α : Type} (cmp : α → α → Ordering) (l : List α) : List α :=
  (l.foldl (fun rl a => insRev cmp a rl) []).reverse

theorem insRev_length {α : Type} (cmp : α → α → Ordering) (a : α) (rl : List α) :
    (insRev cmp a rl).length = rl.length + 1 := by
  induction rl with
  | nil => rfl
  | cons p rl ih =>
    simp only [insRev]
    split
    · simp [ih]
    · simp

theorem sortRust_length {α : Type} (cmp : α → α → Ordering) (l : List α) :
    (sortRust cmp l).length = l.length := by
  suffices h : ∀ rl : List α,
      (l.foldl (fun rl a => insRev cmp a rl) rl).length = rl.length + l.length by
    simpa [sortRust] using h []
  induction l with
  | nil => intro rl; simp
  | cons a l ih =>
    intro rl
    simp only [List.foldl_cons]
    rw [ih (insRev cmp a rl), insRev_length]
    simp [List.length_cons]
    omega

mutual

/-- Structural size of a node: itself plus all descendants. -/
def Node.size : Node → Nat
  | .mk _ _ _ _ _ ns => 1 + Node.sizeList ns

/-- Structural size of a list of nodes. -/
def Node.sizeList : List Node → Nat
  | [] => 0
  | n :: l => Node.size n + Node.sizeList l

end

theorem Node.size_pos (n : Node) : 0 < n.size := by
  cases n with
  | mk i nm f c d ns => simp [Node.size]

theorem Node.size_eq (n : Node) : n.size = 1 + Node.sizeList n.nodes := by
  cases n with
  | mk i nm f c d ns => simp [Node.size, Node.nodes]

theorem Node.sizeList_reverse (l : List Node) :
    Node.sizeList l.reverse = Node.sizeList l := by
  have happ : ∀ l₁ l₂ : List Node,
      Node.sizeList (l₁ ++ l₂) = Node.sizeList l₁ + Node.sizeList l₂ := by
    intro l₁ l₂
    induction l₁ with
    | nil => simp [Node.sizeList]
    | cons n l ih => simp [Node.sizeList, ih]; omega
  induction l with
  | nil => rfl
  | cons n l ih =>
    simp [List.reverse_cons, happ, Node.sizeList, ih]
    omega

theorem Node.sizeList_insRev (cmp : Node → Node → Ordering) (a : Node) (rl : List Node) :
    Node.sizeList (insRev cmp a rl) = Node.size a + Node.sizeList rl := by
  induction rl with
  | nil => simp [insRev, Node.sizeList]
  | cons p rl ih =>
    simp only [insRev]
    split
    · simp [Node.sizeList, ih]; omega
    · simp [Node.sizeList]

theorem Node.sizeList_sortRust (cmp : Node → Node → Ordering) (l : List Node) :
    Node.sizeList (sortRust cmp l) = Node.sizeList l := by
  suffices h : ∀ rl : List Node,
      Node.sizeList (l.foldl (fun rl a => insRev cmp a rl) rl) =
        Node.sizeList rl + Node.sizeList l by
    rw [sortRust, Node.sizeList_reverse]
    simpa [Node.sizeList] using h []
  induction l with
  | nil => intro rl; simp [Node.sizeList]
  | cons a l ih =>
    intro rl
    simp only [List.foldl_cons]
    rw [ih (insRev cmp a rl), Node.sizeList_insRev]
    simp [Node.sizeList]
    omega

/-- The two `panic` outcomes the traversal loop of `main` could in principle
produce: the `unreachable!("Got no node nor a stack of containers, ...")`
branch, and the failure of `assert!(!windows.is_empty())` when an exhausted
stack frame is popped. -/
inductive TravPanic where
  | unreachableHit
  | assertFailed
deriving DecidableEq, Repr

/-- Size of the optional current-node slot. -/
def nodeSize : Option Node → Nat
  | none => 0
  | some n => n.size

/-- Total size of all nodes stored in the traversal stack. -/
def stackSize : List (List Node) → Nat
  | [] => 0
  | v :: rest => Node.sizeList v + stackSize rest

/-- Embeds the explicit-stack traversal loop of `main` (the leaf collector).
State: the `node` slot, the `stack` of sibling frames, and the accumulated
`windows`.  Rust's `Vec` push/pop act on the vector's end; a frame is stored
here as the *reverse* of the sorted child vector, so that `v.pop()` is the
head.  The loop guard is `node.is_some() || !stack.is_empty()`; inside, a
`Some` node is either appended to `windows` (leaf, `nodes.is_empty()`) or has
its children sorted by `Node::asc_above_or_right_of` and pushed as a frame;
otherwise the top frame is popped: if it is empty the assertion
`assert!(!windows.is_empty())` fires, else its last element becomes the
current node.  The `unreachable!()` arm is the `(none, [])` case under a true
guard. -/
def collectRun (node : Option Node) (stack : List (List Node)) (windows : List Node) :
    Except TravPanic (List Node) :=
  if node.isSome || !stack.isEmpty then
    match node, stack with
    | some n, stack' =>
      if n.nodes.isEmpty then
        collectRun none stack' (windows ++ [n])
      else
        collectRun none ((sortRust Node.asc_above_or_right_of n.nodes).reverse :: stack') windows
    | none, v :: rest =>
      match v with
      | [] =>
        if windows.isEmpty then .error .assertFailed
        else collectRun none rest windows
      | c :: vr => collectRun (some c) (vr :: rest) windows
    | none, [] => .error .unreachableHit
  else .ok windows
termination_by
  4 * (nodeSize node + stackSize stack) + 2 * stack.length +
    (match node with | none => 1 | some _ => 0)
decreasing_by
  · simp only [nodeSize, stackSize]
    have h1 := Node.size_pos n
    omega
  · simp only [nodeSize, stackSize, Node.sizeList_reverse, Node.sizeList_sortRust,
      List.length_cons]
    have h1 := Node.size_eq n
    omega
  · simp only [nodeSize, stackSize, Node.sizeList, List.length_cons]
    omega
  · simp only [nodeSize, stackSize, Node.sizeList, List.length_cons]
    omega

/-- Unfolding lemma: a `Some` node is processed as leaf or branch. -/
theorem collectRun_some (n : Node) (stack : List (List Node)) (windows : List Node) :
    collectRun (some n) stack windows =
      if n.nodes.isEmpty then
        collectRun none stack (windows ++ [n])
      else
        collectRun none ((sortRust Node.asc_above_or_right_of n.nodes).reverse :: stack)
          windows := by
  rw [collectRun]
  simp

/-- Unfolding lemma: empty slot, exhausted top frame. -/
theorem collectRun_none_nilframe (rest : List (List Node)) (windows : List Node) :
    collectRun none ([] :: rest) windows =
      if windows.isEmpty then .error .assertFailed
      else collectRun none rest windows := by
  rw [collectRun]
  simp

/-- Unfolding lemma: empty slot, top frame still holds nodes. -/
theorem collectRun_none_consframe (c : Node) (vr : List Node) (rest : List (List Node))
    (windows : List Node) :
    collectRun none ((c :: vr) :: rest) windows =
      collectRun (some c) (vr :: rest) windows := by
  conv_lhs => rw [collectRun]
  simp

/-- Unfolding lemma: empty slot and empty stack end the loop. -/
theorem collectRun_none_nil (windows : List Node) :
    collectRun none [] windows = .ok windows := by
  rw [collectRun]
  simp

theorem sortRust_ne_nil {α : Type} (cmp : α → α → Ordering) (l : List α) (h : l ≠ []) :
    sortRust cmp l ≠ [] := by
  intro hc
  have hlen := sortRust_length cmp l
  rw [hc] at hlen
  exact h (List.eq_nil_of_length_eq_zero hlen.symm)

/-- Loop invariant of the traversal: while no leaf has been collected yet, the
slot holds a node or the top stack frame is nonempty (frames are pushed
nonempty, and a frame is emptied only by moving its last node into the slot). -/
def TravInv (node : Option Node) (stack : List (List Node)) (windows : List Node) : Prop :=
  windows = [] →
    (node.isSome = true ∨ match stack with | [] => True | v :: _ => v ≠ [])

theorem collectRun_ok_of_inv :
    ∀ (node : Option Node) (stack : List (List Node)) (windows : List Node),
      TravInv node stack windows →
      ∃ w, collectRun node stack windows = Except.ok w := by
  intro node stack windows
  induction node, stack, windows using collectRun.induct with
  | case1 windows n stack' hleaf hguard ih =>
    intro _
    rw [collectRun_some, if_pos hleaf]
    refine ih ?_
    intro habs
    exact absurd habs (by simp)
  | case2 windows n stack' hleaf hguard ih =>
    intro _
    rw [collectRun_some, if_neg hleaf]
    refine ih ?_
    intro _
    right
    refine List.reverse_eq_nil_iff.not.mpr ?_
    exact sortRust_ne_nil _ _ (by simpa using hleaf)
  | case3 windows rest hwin hguard =>
    intro hinv
    rcases hinv (List.isEmpty_iff.mp hwin) with h | h
    · exact absurd h (by simp)
    · exact absurd rfl h
  | case4 windows rest hwin hguard ih =>
    intro _
    rw [collectRun_none_nilframe, if_neg hwin]
    refine ih ?_
    intro habs
    exact absurd (List.isEmpty_iff.mpr habs) hwin
  | case5 windows rest c vr hguard ih =>
    intro _
    rw [collectRun_none_consframe]
    refine ih ?_
    intro _
    left
    rfl
  | case6 windows hguard =>
    exact absurd hguard (by simp)
  | case7 node stack windows hguard =>
    intro _
    match node, stack, hguard with
    | none, [], _ => exact ⟨windows, collectRun_none_nil windows⟩
    | some n, _, hguard => exact absurd hguard (by simp)
    | none, v :: rest, hguard => exact absurd hguard (by simp)

/-- Embeds `enum CommandArgument { Next, Prev }`. -/
inductive CommandArgument where
  | Next
  | Prev
deriving DecidableEq, Repr

/-- Embeds `enum Command { Focus, Move }`. -/
inductive Command where
  | Focus
  | Move
deriving DecidableEq, Repr

/-- Embeds the `next_idx` computation of `main`: for `Next`,
`focused_idx + 1` when `windows.len() > focused_idx + 1`, else `0`; for
`Prev`, `focused_idx - 1` when `focused_idx > 0`, else `windows.len() - 1`. -/
def nextIdx (arg : CommandArgument) (len i : Nat) : Nat :=
  match arg with
  | .Next => if len > i + 1 then i + 1 else 0
  | .Prev => if i > 0 then i - 1 else len - 1

/-- Embeds the `cmd_msg` construction of `main`:
`format!("[con_id={}] focus", id)` and
`format!("swap container with con_id {}", id)`. -/
def cmdMsg (cmd : Command) (id : Int) : String :=
  match cmd with
  | .Focus => "[con_id=" ++ toString id ++ "] focus"
  | .Move => "swap container with con_id " ++ toString id

/-- Error outcomes of the post-locator part of `main`: a traversal panic, the
`"Could not find the focused window"` error from
`windows.iter().position(|x| x.focused)`, or an out-of-bounds index panic at
`windows[next_idx]` (provably unreachable). -/
inductive RunError where
  | travPanic (p : TravPanic)
  | noFocusedWindow
  | indexOutOfBounds
deriving DecidableEq, Repr

/-- Embeds `main` from the point where the focused workspace subtree is in
hand: collect the leaves with the explicit-stack traversal, locate the focused
entry, compute the cyclic target index, and build the command string.  An
`Except.ok s` result means exactly that `conn.run_command(s)` is reached with
command `s`; any `Except.error` means the process exits non-zero with no
command sent. -/
def runNav (workspace : Node) (cmd : Command) (arg : CommandArgument) :
    Except RunError String :=
  match collectRun (some workspace) [] [] with
  | .error p => .error (.travPanic p)
  | .ok windows =>
    match windows.findIdx? (fun w => w.focused) with
    | none => .error .noFocusedWindow
    | some i =>
      match windows[nextIdx arg windows.length i]? with
      | none => .error .indexOutOfBounds
      | some w => .ok (cmdMsg cmd w.id)

/-- Embeds `swayipc::Rect`, reduced to the two fields the program reads. -/
structure Rect where
  x : Int
  y : Int
deriving DecidableEq, Repr

/-- Embeds `swayipc::NodeType` (the variants the locator distinguishes). -/
inductive NodeType where
  | root
  | output
  | workspace
  | con
  | floating_con
  | dockarea
deriving DecidableEq, Repr

/-- Embeds `swayipc::Node`, reduced to the fields the program reads: `id`,
`name`, `node_type`, `focused`, the focused-child chain `focus`, `rect`,
`deco_rect`, tiled children `nodes` and `floating_nodes`. -/
inductive RawNode where
  | mk (id : Int) (name : Option String) (node_type : NodeType) (focused : Bool)
       (focus : List Int) (rect : Rect) (deco_rect : Rect)
       (nodes : List RawNode) (floating_nodes : List RawNode)

def RawNode.id : RawNode → Int
  | .mk i _ _ _ _ _ _ _ _ => i

def RawNode.name : RawNode → Option String
  | .mk _ nm _ _ _ _ _ _ _ => nm

def RawNode.node_type : RawNode → NodeType
  | .mk _ _ t _ _ _ _ _ _ => t

def RawNode.focused : RawNode → Bool
  | .mk _ _ _ f _ _ _ _ _ => f

def RawNode.focus : RawNode → List Int
  | .mk _ _ _ _ fo _ _ _ _ => fo

def RawNode.rect : RawNode → Rect
  | .mk _ _ _ _ _ r _ _ _ => r

def RawNode.deco_rect : RawNode → Rect
  | .mk _ _ _ _ _ _ d _ _ => d

def RawNode.nodes : RawNode → List RawNode
  | .mk _ _ _ _ _ _ _ ns _ => ns

def RawNode.floating_nodes : RawNode → List RawNode
  | .mk _ _ _ _ _ _ _ _ fs => fs

/-- The two locator errors of `main`:
`"Could not find a focused output or workspace."` when `node.focus` is empty,
and `"Could not find the focused workspace."` when the focused-child id has no
matching child in `node.nodes`. -/
inductive LocError where
  | noFocusedPath
  | focusedChildMissing
deriving DecidableEq, Repr

theorem RawNode.sizeOf_lt_of_mem {c : RawNode} {n : RawNode} (h : c ∈ n.nodes) :
    sizeOf c < sizeOf n := by
  cases n with
  | mk i nm t f fo r d ns fs =>
    have h1 : sizeOf c < sizeOf ns := List.sizeOf_lt_of_mem (by simpa [RawNode.nodes] using h)
    simp only [RawNode.mk.sizeOf_spec]
    omega

/-- Embeds the focused-workspace locator loop of `main`:
`while node.node_type != NodeType::Workspace` take
`fid = node.focus.into_iter().next()` (error `noFocusedPath` when absent) and
descend to `node.nodes.into_iter().find(|n| n.id == fid)` (error
`focusedChildMissing` when absent). -/
def findWorkspace (n : RawNode) : Except LocError RawNode :=
  if n.node_type = .workspace then .ok n
  else
    match n.focus.head? with
    | none => .error .noFocusedPath
    | some fid =>
      match h : n.nodes.find? (fun c => c.id == fid) with
      | none => .error .focusedChildMissing
      | some c => findWorkspace c
termination_by sizeOf n
decreasing_by
  exact RawNode.sizeOf_lt_of_mem (List.mem_of_find?_eq_some h)

mutual

/-- Embeds `impl From<swayipc::Node> for Node`: the content `y` is taken raw
when the raw node's tiled-children list `nodes` is empty
(`is_node_leaf!(n)`), and corrected by `- deco_rect.y` otherwise; the reduced
children merge `nodes` and `floating_nodes` (in that order). -/
def Node.ofRaw : RawNode → Node
  | .mk i nm _ f _ rect deco ns fs =>
    Node.mk i nm f
      ⟨rect.x, if ns.isEmpty then rect.y else rect.y - deco.y⟩
      ⟨deco.x, deco.y⟩
      (Node.ofRawList ns ++ Node.ofRawList fs)

/-- `Node.ofRaw` mapped over a child list. -/
def Node.ofRawList : List RawNode → List Node
  | [] => []
  | n :: l => Node.ofRaw n :: Node.ofRawList l

end

/-- C4: for a navigable window list of length `n ≥ 1` and focused index
`i < n`, the cyclic selector computes `(i+1) mod n` for `Next` and
`(i-1+n) mod n` for `Prev` (the latter read over the integers); the `∀` covers
`i = 0`, `i = n-1`, interior `i`, and `n = 1`. -/
theorem next_idx_mod (n i : Nat) (hn : 0 < n) (hi : i < n) :
    nextIdx .Next n i = (i + 1) % n ∧
    (nextIdx .Prev n i : Int) = ((i : Int) - 1 + n) % n := by
  constructor
  · simp only [nextIdx]
    split
    · exact (Nat.mod_eq_of_lt (by omega)).symm
    · have h1 : i + 1 = n := by omega
      rw [h1, Nat.mod_self]
  · simp only [nextIdx]
    split
    · have h1 : ((i : Int) - 1 + n) = ((i : Int) - 1) + n * 1 := by ring
      rw [h1, Int.add_mul_emod_self_left, Int.emod_eq_of_lt (by omega) (by omega)]
      omega
    · rw [Int.emod_eq_of_lt (by omega) (by omega)]
      omega

/-- Witness for `next_idx_mod` at `n = 3`, `i = 2`. -/
theorem next_idx_mod_witness :
    nextIdx .Next 3 2 = (2 + 1) % 3 ∧
    (nextIdx .Prev 3 2 : Int) = ((2 : Int) - 1 + 3) % 3 :=
  next_idx_mod 3 2 (by decide) (by decide)

/-- C9: applying the `Next` index computation then the `Prev` one (and vice
versa) returns the original focused index, for any list length `n ≥ 1`. -/
theorem next_prev_roundtrip (n i : Nat) (hn : 0 < n) (hi : i < n) :
    nextIdx .Prev n (nextIdx .Next n i) = i ∧
    nextIdx .Next n (nextIdx .Prev n i) = i := by
  refine ⟨?_, ?_⟩ <;> (simp only [nextIdx]; split_ifs <;> omega)

/-- Witness for `next_prev_roundtrip` at `n = 4`, `i = 0`. -/
theorem next_prev_roundtrip_witness :
    nextIdx .Prev 4 (nextIdx .Next 4 0) = 0 ∧
    nextIdx .Next 4 (nextIdx .Prev 4 0) = 0 :=
  next_prev_roundtrip 4 0 (by decide) (by decide)

/-- C5: for every target id `t` the emitted command string for `Focus` is
exactly `[con_id=<t>] focus` and for `Move` exactly
`swap container with con_id <t>`; in particular at `t = 42`. -/
theorem cmd_msg_shape :
    (∀ t : Int, cmdMsg .Focus t = "[con_id=" ++ toString t ++ "] focus") ∧
    (∀ t : Int, cmdMsg .Move t = "swap container with con_id " ++ toString t) ∧
    cmdMsg .Focus 42 = "[con_id=42] focus" ∧
    cmdMsg .Move 42 = "swap container with con_id 42" := by
  refine ⟨fun t => rfl, fun t => rfl, rfl, rfl⟩

/-- C3 counterexample: the sibling comparator is not antisymmetric on the
full coordinate domain: for `a = (x 0, y 1)` and `b = (x 1, y 0)` both
`a < b` (via `a.x < b.x`) and `b < a` (via `b.y < a.y`). -/
theorem coord_order_counterexample :
    Coord.asc_above_or_right_of ⟨0, 1⟩ ⟨1, 0⟩ = .lt ∧
    Coord.asc_above_or_right_of ⟨1, 0⟩ ⟨0, 1⟩ = .lt := by
  decide

/-- C3 (amended): the three-way comparator (`Equal` iff identical, `Less` iff
`a.y < b.y` or `a.x < b.x`, `Greater` otherwise) is total and reflexive, but a
strict total order only on coordinate sets sharing one `y` (one screen row,
where it orders ascending by `x`): there it is antisymmetric and transitive;
on the full domain antisymmetry fails (`coord_order_counterexample`). -/
theorem coord_order_on_rows (a b c : Coord) :
    (Coord.asc_above_or_right_of a b = .eq ↔ a = b) ∧
    (a.y = b.y →
      ¬(Coord.asc_above_or_right_of a b = .lt ∧ Coord.asc_above_or_right_of b a = .lt)) ∧
    (a.y = b.y → b.y = c.y →
      Coord.asc_above_or_right_of a b = .lt → Coord.asc_above_or_right_of b c = .lt →
      Coord.asc_above_or_right_of a c = .lt) := by
  have hlt : ∀ p q : Coord, Coord.asc_above_or_right_of p q = .lt ↔
      ((p.x ≠ q.x ∨ p.y ≠ q.y) ∧ (p.y < q.y ∨ p.x < q.x)) := by
    intro p q
    obtain ⟨px, py⟩ := p
    obtain ⟨qx, qy⟩ := q
    simp only [Coord.asc_above_or_right_of, Coord.mk.injEq]
    split_ifs with h1 h2
    · simp [h1.1, h1.2]
    · simp only [true_iff]
      exact ⟨by tauto, h2⟩
    · simp [h2]
  obtain ⟨ax, ay⟩ := a
  obtain ⟨bx, by'⟩ := b
  obtain ⟨cx, cy⟩ := c
  refine ⟨?_, ?_, ?_⟩
  · simp only [Coord.asc_above_or_right_of]
    split_ifs with h1 h2 <;> simp_all
  · intro hy
    rw [not_and, hlt, hlt]
    simp only [Coord.mk.injEq] at *
    omega
  · intro hy1 hy2
    rw [hlt, hlt, hlt]
    simp only [Coord.mk.injEq] at *
    omega

/-- Witness for `coord_order_on_rows` on the row `y = 0` at
`a = (0,0)`, `b = (1,0)`, `c = (2,0)`. -/
theorem coord_order_on_rows_witness :
    (Coord.asc_above_or_right_of ⟨0, 0⟩ ⟨1, 0⟩ = .eq ↔ (⟨0, 0⟩ : Coord) = ⟨1, 0⟩) ∧
    ¬(Coord.asc_above_or_right_of ⟨0, 0⟩ ⟨1, 0⟩ = .lt ∧
      Coord.asc_above_or_right_of ⟨1, 0⟩ ⟨0, 0⟩ = .lt) ∧
    Coord.asc_above_or_right_of ⟨0, 0⟩ ⟨2, 0⟩ = .lt := by
  have h := coord_order_on_rows ⟨0, 0⟩ ⟨1, 0⟩ ⟨2, 0⟩
  exact ⟨h.1, h.2.1 rfl, h.2.2 rfl rfl (by decide) (by decide)⟩

/-- C10: for every finite input tree the explicit-stack traversal loop
terminates (`collectRun` is total by its decreasing measure), the
`unreachable!()` arm is never executed and `assert!(!windows.is_empty())`
never fails: started on any root with empty stack, the loop returns `ok`,
never `error .unreachableHit` or `error .assertFailed`. -/
theorem traversal_no_panic (root : Node) :
    ∃ w, collectRun (some root) [] [] = Except.ok w :=
  collectRun_ok_of_inv (some root) [] [] (fun _ => Or.inl rfl)

/-- `sort_unstable_by` on a two-element slice: one comparison of the second
element against the first, swapping only when it is `Less`. -/
theorem sortRust_pair {α : Type} (cmp : α → α → Ordering) (u v : α) :
    sortRust cmp [u, v] = if cmp v u = .lt then [v, u] else [u, v] := by
  simp only [sortRust, List.foldl_cons, List.foldl_nil, insRev]
  split <;> simp

/-- Running the traversal on a branch holding exactly two leaves yields the
*reverse* of the sorted child vector, because the loop consumes each frame by
`Vec::pop` from the end. -/
theorem collectRun_pair_leaves (i : Int) (nm : Option String) (f : Bool)
    (pc pd : Coord) (iu : Int) (nmu : Option String) (fu : Bool) (cu du : Coord)
    (iv : Int) (nmv : Option String) (fv : Bool) (cv dv : Coord) :
    collectRun (some (Node.mk i nm f pc pd
        [Node.mk iu nmu fu cu du [], Node.mk iv nmv fv cv dv []])) [] [] =
      Except.ok ((sortRust Node.asc_above_or_right_of
        [Node.mk iu nmu fu cu du [], Node.mk iv nmv fv cv dv []]).reverse) := by
  rw [collectRun_some]
  rw [if_neg (by simp [Node.nodes])]
  simp only [Node.nodes]
  rw [sortRust_pair]
  split
  · rw [show ([Node.mk iv nmv fv cv dv [], Node.mk iu nmu fu cu du []] :
        List Node).reverse = [Node.mk iu nmu fu cu du [], Node.mk iv nmv fv cv dv []] from rfl]
    rw [collectRun_none_consframe, collectRun_some, if_pos (by simp [Node.nodes])]
    simp only [List.nil_append]
    rw [collectRun_none_consframe, collectRun_some, if_pos (by simp [Node.nodes])]
    rw [collectRun_none_nilframe, if_neg (by simp), collectRun_none_nil]
    rfl
  · rw [show ([Node.mk iu nmu fu cu du [], Node.mk iv nmv fv cv dv []] :
        List Node).reverse = [Node.mk iv nmv fv cv dv [], Node.mk iu nmu fu cu du []] from rfl]
    rw [collectRun_none_consframe, collectRun_some, if_pos (by simp [Node.nodes])]
    simp only [List.nil_append]
    rw [collectRun_none_consframe, collectRun_some, if_pos (by simp [Node.nodes])]
    rw [collectRun_none_nilframe, if_neg (by simp), collectRun_none_nil]
    rfl

theorem insRev_mem {α : Type} (cmp : α → α → Ordering) (a : α) (rl : List α) (x : α) :
    x ∈ insRev cmp a rl ↔ x = a ∨ x ∈ rl := by
  induction rl with
  | nil => simp [insRev]
  | cons p rl ih =>
    simp only [insRev]
    split
    · simp only [List.mem_cons, ih]
      tauto
    · simp [List.mem_cons]

theorem sortRust_mem {α : Type} (cmp : α → α → Ordering) (l : List α) (x : α) :
    x ∈ sortRust cmp l ↔ x ∈ l := by
  have h : ∀ (l rl : List α),
      x ∈ l.foldl (fun rl a => insRev cmp a rl) rl ↔ x ∈ rl ∨ x ∈ l := by
    intro l
    induction l with
    | nil => intro rl; simp
    | cons a l ih =>
      intro rl
      simp only [List.foldl_cons]
      rw [ih (insRev cmp a rl)]
      simp only [insRev_mem, List.mem_cons]
      tauto
  rw [sortRust]
  simp [h l []]

/-- Inserting into a reversed sorted prefix preserves the "no later element is
less than an earlier one" invariant, provided the comparator is dual and
`≠ lt`-transitive on the elements involved. -/
theorem insRev_pairwise {α : Type} (cmp : α → α → Ordering) (S : α → Prop)
    (hdual : ∀ u v, S u → S v → cmp u v = .lt → cmp v u ≠ .lt)
    (htrans : ∀ u v w, S u → S v → S w →
      cmp u v ≠ .lt → cmp v w ≠ .lt → cmp u w ≠ .lt) :
    ∀ (rl : List α) (a : α), S a → (∀ x ∈ rl, S x) →
      List.Pairwise (fun u v => cmp u v ≠ .lt) rl →
      List.Pairwise (fun u v => cmp u v ≠ .lt) (insRev cmp a rl) := by
  intro rl
  induction rl with
  | nil =>
    intro a _ _ _
    simp [insRev]
  | cons p rl ih =>
    intro a ha hmem hp
    rw [List.pairwise_cons] at hp
    obtain ⟨hpq, hprl⟩ := hp
    simp only [insRev]
    split
    · rename_i hlt
      rw [List.pairwise_cons]
      constructor
      · intro q hq
        rw [insRev_mem] at hq
        rcases hq with rfl | hq
        · exact hdual q p ha (hmem p (by simp)) hlt
        · exact hpq q hq
      · exact ih a ha (fun x hx => hmem x (by simp [hx])) hprl
    · rename_i hnlt
      rw [List.pairwise_cons]
      constructor
      · intro q hq
        rcases List.mem_cons.mp hq with rfl | hq
        · exact hnlt
        · exact htrans a p q ha (hmem p (by simp)) (hmem q (by simp [hq])) hnlt (hpq q hq)
      · exact List.pairwise_cons.mpr ⟨hpq, hprl⟩

theorem foldl_insRev_pairwise {α : Type} (cmp : α → α → Ordering) (S : α → Prop)
    (hdual : ∀ u v, S u → S v → cmp u v = .lt → cmp v u ≠ .lt)
    (htrans : ∀ u v w, S u → S v → S w →
      cmp u v ≠ .lt → cmp v w ≠ .lt → cmp u w ≠ .lt) :
    ∀ (l rl : List α), (∀ x ∈ l, S x) → (∀ x ∈ rl, S x) →
      List.Pairwise (fun u v => cmp u v ≠ .lt) rl →
      List.Pairwise (fun u v => cmp u v ≠ .lt)
        (l.foldl (fun rl a => insRev cmp a rl) rl) := by
  intro l
  induction l with
  | nil =>
    intro rl _ _ hp
    simpa using hp
  | cons a l ih =>
    intro rl hl hrl hp
    simp only [List.foldl_cons]
    refine ih (insRev cmp a rl) (fun x hx => hl x (by simp [hx])) ?_ ?_
    · intro x hx
      rw [insRev_mem] at hx
      rcases hx with rfl | hx
      · exact hl x (by simp)
      · exact hrl x hx
    · exact insRev_pairwise cmp S hdual htrans rl a (hl a (by simp)) hrl hp

/-- The traversal output for an all-leaf sibling frame — the reverse of the
sorted vector — satisfies: no later window compares `Less` than an earlier
one, given duality and `≠ lt`-transitivity of the comparator on the
siblings. -/
theorem sortRust_reverse_pairwise {α : Type} (cmp : α → α → Ordering) (S : α → Prop)
    (hdual : ∀ u v, S u → S v → cmp u v = .lt → cmp v u ≠ .lt)
    (htrans : ∀ u v w, S u → S v → S w →
      cmp u v ≠ .lt → cmp v w ≠ .lt → cmp u w ≠ .lt)
    (l : List α) (hl : ∀ x ∈ l, S x) :
    List.Pairwise (fun u v => cmp u v ≠ .lt) ((sortRust cmp l).reverse) := by
  rw [sortRust, List.reverse_reverse]
  exact foldl_insRev_pairwise cmp S hdual htrans l [] hl (by simp) (by simp)

/-- A frame of leaves is consumed head to tail, each leaf appended to
`windows` in turn. -/
theorem collectRun_leaf_frame (v : List Node) :
    ∀ (windows : List Node), (∀ n ∈ v, n.nodes = []) → (windows = [] → v ≠ []) →
      collectRun none [v] windows = Except.ok (windows ++ v) := by
  induction v with
  | nil =>
    intro windows _ hw
    rw [collectRun_none_nilframe,
      if_neg (by simp only [List.isEmpty_iff]; exact fun h => (hw h) rfl),
      collectRun_none_nil]
    simp
  | cons c v ih =>
    intro windows hle hw
    rw [collectRun_none_consframe, collectRun_some,
      if_pos (by simp [hle c (by simp)]),
      ih (windows ++ [c]) (fun n hn => hle n (by simp [hn])) (by simp)]
    simp

/-- Running the traversal on a branch whose children are all leaves yields the
reverse of the sorted child vector (the loop pops each frame from the
vector's end). -/
theorem collectRun_leaves (i : Int) (nm : Option String) (f : Bool) (pc pd : Coord)
    (l : List Node) (hne : l ≠ []) (hleaves : ∀ n ∈ l, n.nodes = []) :
    collectRun (some (Node.mk i nm f pc pd l)) [] [] =
      Except.ok ((sortRust Node.asc_above_or_right_of l).reverse) := by
  have hfr1 : ∀ n ∈ (sortRust Node.asc_above_or_right_of l).reverse, n.nodes = [] := by
    intro n hn
    rw [List.mem_reverse, sortRust_mem] at hn
    exact hleaves n hn
  have hfr2 : ([] : List Node) = [] →
      (sortRust Node.asc_above_or_right_of l).reverse ≠ [] := by
    intro _
    simp only [ne_eq, List.reverse_eq_nil_iff]
    exact sortRust_ne_nil _ _ hne
  rw [collectRun_some,
    if_neg (by simp only [Node.nodes, List.isEmpty_iff]; exact hne)]
  simp only [Node.nodes]
  rw [collectRun_leaf_frame ((sortRust Node.asc_above_or_right_of l).reverse) [] hfr1 hfr2]
  simp

/-- The comparator never takes a node strictly below itself. -/
theorem node_cmp_self (a : Node) : Node.asc_above_or_right_of a a = .eq := by
  rw [Node.asc_above_or_right_of, Coord.asc_above_or_right_of, if_pos rfl, intCmp,
    if_neg (lt_irrefl _), if_pos rfl]
  rfl

theorem Coord.eq_iff (a b : Coord) : a = b ↔ a.x = b.x ∧ a.y = b.y := by
  constructor
  · intro h
    rw [h]
    exact ⟨rfl, rfl⟩
  · intro ⟨hx, hy⟩
    cases a
    cases b
    simp_all

/-- Characterisation of `Node::asc_above_or_right_of` returning `Less`:
either the coordinate comparison put the other node first (reversed), or the
coordinates tie and the decoration-x tie-break decides. -/
theorem node_cmp_lt_iff (a b : Node) :
    Node.asc_above_or_right_of a b = .lt ↔
      ((a.coords ≠ b.coords ∧
          ¬(a.coords.y < b.coords.y ∨ a.coords.x < b.coords.x)) ∨
       (a.coords = b.coords ∧ b.deco_coords.x < a.deco_coords.x)) := by
  rw [Node.asc_above_or_right_of, Coord.asc_above_or_right_of]
  by_cases h1 : a.coords = b.coords
  · rw [if_pos h1, intCmp]
    by_cases h2 : b.deco_coords.x < a.deco_coords.x
    · rw [if_pos h2, show Ordering.eq.swap.then Ordering.lt = Ordering.lt from rfl]
      simp [h1, h2]
    · rw [if_neg h2]
      by_cases h3 : b.deco_coords.x = a.deco_coords.x
      · rw [if_pos h3, show Ordering.eq.swap.then Ordering.eq = Ordering.eq from rfl]
        simp [h1, h2]
      · rw [if_neg h3, show Ordering.eq.swap.then Ordering.gt = Ordering.gt from rfl]
        simp [h1, h2]
  · rw [if_neg h1]
    by_cases h2 : a.coords.y < b.coords.y ∨ a.coords.x < b.coords.x
    · rw [if_pos h2, show Ordering.lt.swap.then
          (intCmp b.deco_coords.x a.deco_coords.x) = Ordering.gt from rfl]
      simp [h1, h2]
    · rw [if_neg h2, show Ordering.gt.swap.then
          (intCmp b.deco_coords.x a.deco_coords.x) = Ordering.lt from rfl]
      simp [h1, h2]

/-- Duality of the sibling comparator: a strict `Less` in one direction rules
out `Less` in the other (this holds unconditionally: the inconsistency of the
comparator shows up as mutual `Greater`, never mutual `Less`). -/
theorem node_cmp_dual (u v : Node) (h : Node.asc_above_or_right_of u v = .lt) :
    Node.asc_above_or_right_of v u ≠ .lt := by
  intro h2
  rw [node_cmp_lt_iff] at h h2
  simp only [Coord.eq_iff, ne_eq] at h h2
  omega

/-- On a concordant sibling set — every two positions comparable in the
componentwise product order — `≠ Less` is transitive: it is the lexicographic
preorder by content position then decoration x. -/
theorem node_cmp_trans_concordant (u v w : Node)
    (hvw : (v.coords.x ≤ w.coords.x ∧ v.coords.y ≤ w.coords.y) ∨
      (w.coords.x ≤ v.coords.x ∧ w.coords.y ≤ v.coords.y))
    (huw : (u.coords.x ≤ w.coords.x ∧ u.coords.y ≤ w.coords.y) ∨
      (w.coords.x ≤ u.coords.x ∧ w.coords.y ≤ u.coords.y))
    (h1 : Node.asc_above_or_right_of u v ≠ .lt)
    (h2 : Node.asc_above_or_right_of v w ≠ .lt) :
    Node.asc_above_or_right_of u w ≠ .lt := by
  intro h3
  simp only [ne_eq] at h1 h2
  rw [node_cmp_lt_iff] at h1 h2 h3
  simp only [Coord.eq_iff, ne_eq] at h1 h2 h3
  omega

/-- From the pairwise "no later element less than an earlier one" fact, a
strictly ordered pair appears in order: `[A, B]` is a sublist and `[B, A]` is
not — every occurrence of A precedes every occurrence of B. -/
theorem sublist_order_of_pairwise {α : Type} {R : α → α → Prop} {o : List α}
    (hp : List.Pairwise R o) {A B : α} (hA : A ∈ o) (hB : B ∈ o) (hne : A ≠ B)
    (hnR : ¬ R B A) : List.Sublist [A, B] o ∧ ¬ List.Sublist [B, A] o := by
  have hnot : ¬ List.Sublist [B, A] o := by
    intro hs
    have hp2 : List.Pairwise R [B, A] := hp.sublist hs
    rw [List.pairwise_cons] at hp2
    exact hnR (hp2.1 A (by simp))
  refine ⟨?_, hnot⟩
  obtain ⟨s, t, rfl⟩ := List.append_of_mem hA
  rcases List.mem_append.mp hB with hBs | hBt
  · exfalso
    apply hnot
    obtain ⟨s1, s2, rfl⟩ := List.append_of_mem hBs
    have h1 : List.Sublist [B, A] (B :: (s2 ++ A :: t)) := by
      refine List.Sublist.cons₂ B ?_
      exact (List.singleton_sublist.mpr (by simp)).trans
        (List.sublist_append_right s2 (A :: t))
    have h2 : List.Sublist (B :: (s2 ++ A :: t)) (s1 ++ (B :: (s2 ++ A :: t))) :=
      List.sublist_append_right _ _
    have h3 := h1.trans h2
    simp only [List.append_assoc, List.cons_append] at h3 ⊢
    exact h3
  · rcases List.mem_cons.mp hBt with hBA | hBt2
    · exact absurd hBA.symm hne
    · have h1 : List.Sublist [A, B] (A :: t) :=
        List.Sublist.cons₂ A (List.singleton_sublist.mpr hBt2)
      exact h1.trans (List.sublist_append_right s (A :: t))

/-- Main ordering theorem for an all-leaf sibling list: whenever the
comparator is `≠ lt`-transitive on the siblings and strictly orders B below A
(`cmp B A = Less`, i.e. A sorts after B in the vector and is popped first),
the collector emits every occurrence of A before every occurrence of B. -/
theorem collect_leaves_order (i : Int) (nm : Option String) (f : Bool) (pc pd : Coord)
    (l : List Node) (hleaves : ∀ n ∈ l, n.nodes = [])
    (htrans : ∀ u v w, u ∈ l → v ∈ l → w ∈ l →
      Node.asc_above_or_right_of u v ≠ .lt → Node.asc_above_or_right_of v w ≠ .lt →
      Node.asc_above_or_right_of u w ≠ .lt)
    (A B : Node) (hA : A ∈ l) (hB : B ∈ l)
    (hlt : Node.asc_above_or_right_of B A = .lt) :
    ∃ o, collectRun (some (Node.mk i nm f pc pd l)) [] [] = Except.ok o ∧
      List.Sublist [A, B] o ∧ ¬ List.Sublist [B, A] o := by
  refine ⟨(sortRust Node.asc_above_or_right_of l).reverse,
    collectRun_leaves i nm f pc pd l (List.ne_nil_of_mem hA) hleaves, ?_⟩
  have hp := sortRust_reverse_pairwise Node.asc_above_or_right_of (· ∈ l)
    (fun u v _ _ h => node_cmp_dual u v h)
    (fun u v w hu hv hw => htrans u v w hu hv hw) l (fun x hx => hx)
  have hAo : A ∈ (sortRust Node.asc_above_or_right_of l).reverse := by
    rw [List.mem_reverse, sortRust_mem]
    exact hA
  have hBo : B ∈ (sortRust Node.asc_above_or_right_of l).reverse := by
    rw [List.mem_reverse, sortRust_mem]
    exact hB
  have hne : A ≠ B := by
    intro h
    rw [h, node_cmp_self] at hlt
    cases hlt
  exact sublist_order_of_pairwise hp hAo hBo hne (fun hR => hR hlt)

/-- C1 counterexample: two sibling leaves share content position `(0,0)` but
have decoration x = 20 (`id 1`) and x = 10 (`id 2`); the navigable window
list produced by the leaf collector is `[id 2, id 1]` — the x = 10 leaf comes
first, not the x = 20 one as the claim states.  (The descending deco-x
tie-break orders the intermediate sorted vector, which the loop then consumes
in reverse by popping from the end.) -/
theorem tie_break_counterexample :
    collectRun
      (some (Node.mk 3 none false ⟨0, 0⟩ ⟨0, 0⟩
        [Node.mk 1 (some "A") false ⟨0, 0⟩ ⟨20, 0⟩ [],
         Node.mk 2 (some "B") false ⟨0, 0⟩ ⟨10, 0⟩ []])) [] [] =
      Except.ok
        [Node.mk 2 (some "B") false ⟨0, 0⟩ ⟨10, 0⟩ [],
         Node.mk 1 (some "A") false ⟨0, 0⟩ ⟨20, 0⟩ []] ∧
    (Node.mk 1 (some "A") false ⟨0, 0⟩ ⟨20, 0⟩ [] : Node).deco_coords.x = 20 ∧
    (Node.mk 2 (some "B") false ⟨0, 0⟩ ⟨10, 0⟩ [] : Node).deco_coords.x = 10 := by
  refine ⟨?_, rfl, rfl⟩
  rw [collectRun_pair_leaves]
  rfl

/-- C1 (amended): for two sibling leaves A and B with identical effective
content position and decoration x-coordinates `dxA > dxB`, in a sibling set
whose content positions are pairwise concordant (every two siblings
comparable in the componentwise product order, as actual split, tabbed and
stacked layouts produce), the *smaller* decoration-x leaf B precedes A in the
navigable window list, whatever the original child order and the other
siblings: the descending decoration-x tie-break orders the in-place sorted
child vector, and the traversal consumes that vector in reverse by popping
from its end, so the final list ascends by decoration x.  With a discordant
sibling present the comparator loses transitivity and the order of the tied
pair can flip, so the concordance hypothesis is required. -/
theorem tie_break_ascending_in_set (i : Int) (nm : Option String) (f : Bool)
    (pc pd : Coord) (l : List Node) (hleaves : ∀ n ∈ l, n.nodes = [])
    (hconc : ∀ u v, u ∈ l → v ∈ l →
      (u.coords.x ≤ v.coords.x ∧ u.coords.y ≤ v.coords.y) ∨
      (v.coords.x ≤ u.coords.x ∧ v.coords.y ≤ u.coords.y))
    (A B : Node) (hA : A ∈ l) (hB : B ∈ l)
    (hc : A.coords = B.coords) (hx : B.deco_coords.x < A.deco_coords.x) :
    ∃ o, collectRun (some (Node.mk i nm f pc pd l)) [] [] = Except.ok o ∧
      List.Sublist [B, A] o ∧ ¬ List.Sublist [A, B] o := by
  have hlt : Node.asc_above_or_right_of A B = .lt := by
    rw [node_cmp_lt_iff]
    right
    exact ⟨hc, hx⟩
  exact collect_leaves_order i nm f pc pd l hleaves
    (fun u v w hu hv hw => node_cmp_trans_concordant u v w
      (hconc v w hv hw) (hconc u w hu hw))
    B A hB hA hlt

/-- Witness for `tie_break_ascending_in_set`: three concordant siblings, A
(`id 11`) and B (`id 12`) tied at `(2, 3)` with deco x 20 and 10, a third
sibling at `(2, 40)`, children scrambled. -/
theorem tie_break_ascending_in_set_witness :
    ∃ o, collectRun (some (Node.mk 30 none true ⟨5, 5⟩ ⟨5, 5⟩
        [Node.mk 12 (some "B") true ⟨2, 3⟩ ⟨10, 0⟩ [],
         Node.mk 13 (some "C") false ⟨2, 40⟩ ⟨0, 0⟩ [],
         Node.mk 11 (some "A") false ⟨2, 3⟩ ⟨20, 0⟩ []])) [] [] = Except.ok o ∧
      List.Sublist [Node.mk 12 (some "B") true ⟨2, 3⟩ ⟨10, 0⟩ [],
        Node.mk 11 (some "A") false ⟨2, 3⟩ ⟨20, 0⟩ []] o ∧
      ¬ List.Sublist [Node.mk 11 (some "A") false ⟨2, 3⟩ ⟨20, 0⟩ [],
        Node.mk 12 (some "B") true ⟨2, 3⟩ ⟨10, 0⟩ []] o :=
  tie_break_ascending_in_set 30 none true ⟨5, 5⟩ ⟨5, 5⟩
    [Node.mk 12 (some "B") true ⟨2, 3⟩ ⟨10, 0⟩ [],
     Node.mk 13 (some "C") false ⟨2, 40⟩ ⟨0, 0⟩ [],
     Node.mk 11 (some "A") false ⟨2, 3⟩ ⟨20, 0⟩ []]
    (by
      intro n hn
      simp only [List.mem_cons, List.not_mem_nil, or_false] at hn
      rcases hn with rfl | rfl | rfl <;> rfl)
    (by
      intro u v hu hv
      simp only [List.mem_cons, List.not_mem_nil, or_false] at hu hv
      rcases hu with rfl | rfl | rfl <;> rcases hv with rfl | rfl | rfl <;> decide)
    (Node.mk 11 (some "A") false ⟨2, 3⟩ ⟨20, 0⟩ [])
    (Node.mk 12 (some "B") true ⟨2, 3⟩ ⟨10, 0⟩ [])
    (by simp) (by simp) rfl (by decide)

/-- C6 counterexample: sibling leaves A (`id 1`, position `(x 10, y 0)`) and
B (`id 2`, position `(x 0, y 5)`) satisfy `A.y < B.y`, yet with child order
`[A, B]` the collector emits `[B, A]`: the comparator's `a.x < b.x`
disjunct makes A and B mutually `Less`-incomparable-inconsistent (each side
reports `Greater` after the reversal), the two-element sort therefore leaves
the vector unchanged, and the end-popping traversal reverses it. -/
theorem sibling_order_counterexample :
    collectRun
      (some (Node.mk 3 none false ⟨0, 0⟩ ⟨0, 0⟩
        [Node.mk 1 (some "A") false ⟨10, 0⟩ ⟨0, 0⟩ [],
         Node.mk 2 (some "B") false ⟨0, 5⟩ ⟨0, 0⟩ []])) [] [] =
      Except.ok
        [Node.mk 2 (some "B") false ⟨0, 5⟩ ⟨0, 0⟩ [],
         Node.mk 1 (some "A") false ⟨10, 0⟩ ⟨0, 0⟩ []] ∧
    (Node.mk 1 (some "A") false ⟨10, 0⟩ ⟨0, 0⟩ [] : Node).coords.y <
      (Node.mk 2 (some "B") false ⟨0, 5⟩ ⟨0, 0⟩ [] : Node).coords.y := by
  refine ⟨?_, by decide⟩
  rw [collectRun_pair_leaves]
  rfl

/-- C6 (amended): for two sibling leaves A and B at the same depth with
`A.y < B.y`, in a sibling set whose content positions are pairwise concordant
(every two siblings comparable in the componentwise product order, as actual
split, tabbed and stacked layouts produce — this also forces `A.x ≤ B.x`), A
precedes B in the navigable window list regardless of the decoration
coordinates of every sibling and of the original child order.  Without the
concordance hypothesis the claim fails: a sibling lying strictly left of a
higher one makes the comparator's `a.x < b.x` disjunct contradict the
`a.y < b.y` one (`sibling_order_counterexample`), and even a concordant pair
can be flipped by a discordant third sibling. -/
theorem sibling_order_concordant_set (i : Int) (nm : Option String) (f : Bool)
    (pc pd : Coord) (l : List Node) (hleaves : ∀ n ∈ l, n.nodes = [])
    (hconc : ∀ u v, u ∈ l → v ∈ l →
      (u.coords.x ≤ v.coords.x ∧ u.coords.y ≤ v.coords.y) ∨
      (v.coords.x ≤ u.coords.x ∧ v.coords.y ≤ u.coords.y))
    (A B : Node) (hA : A ∈ l) (hB : B ∈ l) (hy : A.coords.y < B.coords.y) :
    ∃ o, collectRun (some (Node.mk i nm f pc pd l)) [] [] = Except.ok o ∧
      List.Sublist [A, B] o ∧ ¬ List.Sublist [B, A] o := by
  have hx : A.coords.x ≤ B.coords.x := by
    rcases hconc A B hA hB with ⟨h1, _⟩ | ⟨_, h2⟩
    · exact h1
    · omega
  have hlt : Node.asc_above_or_right_of B A = .lt := by
    rw [node_cmp_lt_iff]
    left
    constructor
    · rw [ne_eq, Coord.eq_iff]
      omega
    · omega
  exact collect_leaves_order i nm f pc pd l hleaves
    (fun u v w hu hv hw => node_cmp_trans_concordant u v w
      (hconc v w hv hw) (hconc u w hu hw))
    A B hA hB hlt

/-- Witness for `sibling_order_concordant_set`: three concordant siblings in
one column, A at `(0, 0)` and B at `(0, 100)` with deliberately discordant
decorations (A's deco x = 99 > B's deco x = 1), a third sibling at `(0, 50)`,
children scrambled. -/
theorem sibling_order_concordant_set_witness :
    ∃ o, collectRun (some (Node.mk 3 none false ⟨0, 0⟩ ⟨0, 0⟩
        [Node.mk 2 (some "B") false ⟨0, 100⟩ ⟨1, 0⟩ [],
         Node.mk 4 (some "C") false ⟨0, 50⟩ ⟨50, 2⟩ [],
         Node.mk 1 (some "A") true ⟨0, 0⟩ ⟨99, 7⟩ []])) [] [] = Except.ok o ∧
      List.Sublist [Node.mk 1 (some "A") true ⟨0, 0⟩ ⟨99, 7⟩ [],
        Node.mk 2 (some "B") false ⟨0, 100⟩ ⟨1, 0⟩ []] o ∧
      ¬ List.Sublist [Node.mk 2 (some "B") false ⟨0, 100⟩ ⟨1, 0⟩ [],
        Node.mk 1 (some "A") true ⟨0, 0⟩ ⟨99, 7⟩ []] o :=
  sibling_order_concordant_set 3 none false ⟨0, 0⟩ ⟨0, 0⟩
    [Node.mk 2 (some "B") false ⟨0, 100⟩ ⟨1, 0⟩ [],
     Node.mk 4 (some "C") false ⟨0, 50⟩ ⟨50, 2⟩ [],
     Node.mk 1 (some "A") true ⟨0, 0⟩ ⟨99, 7⟩ []]
    (by
      intro n hn
      simp only [List.mem_cons, List.not_mem_nil, or_false] at hn
      rcases hn with rfl | rfl | rfl <;> rfl)
    (by
      intro u v hu hv
      simp only [List.mem_cons, List.not_mem_nil, or_false] at hu hv
      rcases hu with rfl | rfl | rfl <;> rcases hv with rfl | rfl | rfl <;> decide)
    (Node.mk 1 (some "A") true ⟨0, 0⟩ ⟨99, 7⟩ [])
    (Node.mk 2 (some "B") false ⟨0, 100⟩ ⟨1, 0⟩ [])
    (by simp) (by simp) (by decide)

/-- C2 counterexample: a workspace with zero window leaves (no tiled and no
floating children), marked focused — as sway reports for an empty focused
workspace.  The run does *not* fail: the workspace node itself satisfies
`is_node_leaf!` and is collected as the sole "window", the focused index is
found, and `run_command` is reached with a focus command aimed at the
workspace's own id.  No `NoWindowsFound` error exists in the code. -/
theorem empty_workspace_counterexample :
    runNav (Node.mk 7 (some "ws") true ⟨0, 0⟩ ⟨0, 0⟩ []) .Focus .Next =
      Except.ok "[con_id=7] focus" := by
  have hc : collectRun (some (Node.mk 7 (some "ws") true ⟨0, 0⟩ ⟨0, 0⟩ [])) [] [] =
      Except.ok [Node.mk 7 (some "ws") true ⟨0, 0⟩ ⟨0, 0⟩ []] := by
    rw [collectRun_some, if_pos (by simp [Node.nodes])]
    simpa using collectRun_none_nil [Node.mk 7 (some "ws") true ⟨0, 0⟩ ⟨0, 0⟩ []]
  simp only [runNav, hc]
  rfl

/-- C2 (amended): on a workspace with zero window leaves the collector returns
the workspace node itself as the single entry of the navigable list (it has
empty `nodes`, so `is_node_leaf!` holds for it).  If the workspace node is
marked focused, the program emits a command targeting the workspace's own id;
if it is not, the run fails with the `NoFocusedWindow` error
(`"Could not find the focused window"`) — in neither case is a
`NoWindowsFound` error produced, and in the focused case a command *is*
sent. -/
theorem empty_workspace_behavior (ws : Node) (cmd : Command) (arg : CommandArgument)
    (hleaf : ws.nodes = []) :
    collectRun (some ws) [] [] = Except.ok [ws] ∧
    (ws.focused = true → runNav ws cmd arg = Except.ok (cmdMsg cmd ws.id)) ∧
    (ws.focused = false → runNav ws cmd arg = Except.error .noFocusedWindow) := by
  have hc : collectRun (some ws) [] [] = Except.ok [ws] := by
    rw [collectRun_some, if_pos (by simp [hleaf])]
    simpa using collectRun_none_nil [ws]
  refine ⟨hc, ?_, ?_⟩
  · intro hf
    simp only [runNav, hc]
    cases arg <;> simp [List.findIdx?, hf, nextIdx]
  · intro hf
    simp only [runNav, hc]
    simp [List.findIdx?, hf]

/-- Witness for `empty_workspace_behavior` at a concrete focused empty
workspace with id 9, action `Move`, direction `Prev`. -/
theorem empty_workspace_behavior_witness :
    collectRun (some (Node.mk 9 (some "2") true ⟨3, 4⟩ ⟨3, 4⟩ [])) [] [] =
      Except.ok [Node.mk 9 (some "2") true ⟨3, 4⟩ ⟨3, 4⟩ []] ∧
    ((Node.mk 9 (some "2") true ⟨3, 4⟩ ⟨3, 4⟩ [] : Node).focused = true →
      runNav (Node.mk 9 (some "2") true ⟨3, 4⟩ ⟨3, 4⟩ []) .Move .Prev =
        Except.ok (cmdMsg .Move (Node.mk 9 (some "2") true ⟨3, 4⟩ ⟨3, 4⟩ [] : Node).id)) ∧
    ((Node.mk 9 (some "2") true ⟨3, 4⟩ ⟨3, 4⟩ [] : Node).focused = false →
      runNav (Node.mk 9 (some "2") true ⟨3, 4⟩ ⟨3, 4⟩ []) .Move .Prev =
        Except.error .noFocusedWindow) :=
  empty_workspace_behavior (Node.mk 9 (some "2") true ⟨3, 4⟩ ⟨3, 4⟩ []) .Move .Prev rfl

theorem Node.ofRawList_eq_nil (l : List RawNode) : Node.ofRawList l = [] ↔ l = [] := by
  cases l <;> simp [Node.ofRawList]

/-- C7 counterexample: a raw node with *no tiled children but one floating
child* (e.g. a workspace holding a single floating window), `rect.y = 100`,
`deco_rect.y = 5`.  Its reduced form is a branch (`nodes ≠ []`, the floating
child participates), yet its effective `y` stays the raw `100` instead of the
corrected `100 - 5 = 95` the claim requires for branches: `is_node_leaf!`
inspects only the raw tiled `nodes` list. -/
theorem of_raw_counterexample :
    (Node.ofRaw (RawNode.mk 1 (some "ws") .workspace false [] ⟨0, 100⟩ ⟨0, 5⟩ []
      [RawNode.mk 2 (some "w") .floating_con false [] ⟨0, 0⟩ ⟨0, 0⟩ [] []])).nodes ≠ [] ∧
    (Node.ofRaw (RawNode.mk 1 (some "ws") .workspace false [] ⟨0, 100⟩ ⟨0, 5⟩ []
      [RawNode.mk 2 (some "w") .floating_con false [] ⟨0, 0⟩ ⟨0, 0⟩ [] []])).coords.y = 100 ∧
    ((100 : Int) - 5 = 95) := by
  refine ⟨?_, rfl, rfl⟩
  simp [Node.ofRaw, Node.ofRawList, Node.nodes]

/-- C7 (amended): in the conversion to the reduced `Node` form, the effective
content position is `(rect.x, rect.y)` when the raw node's *tiled* children
list `nodes` is empty (`is_node_leaf!` checks only that list), and
`(rect.x, rect.y - deco_rect.y)` otherwise; this coincides with the reduced
form's leaf/branch distinction (`children` empty or not) exactly when the raw
node has no floating children (`of_raw_counterexample` shows the divergence
for a floating-only container). -/
theorem of_raw_effective_position (r : RawNode) :
    (Node.ofRaw r).coords.x = r.rect.x ∧
    (r.nodes = [] → (Node.ofRaw r).coords.y = r.rect.y) ∧
    (r.nodes ≠ [] → (Node.ofRaw r).coords.y = r.rect.y - r.deco_rect.y) ∧
    (r.floating_nodes = [] → ((Node.ofRaw r).nodes = [] ↔ r.nodes = [])) := by
  cases r with
  | mk i nm t f fo rect deco ns fs =>
    refine ⟨?_, ?_, ?_, ?_⟩
    · simp [Node.ofRaw, Node.coords, RawNode.rect]
    · intro h
      simp only [RawNode.nodes] at h
      simp [Node.ofRaw, Node.coords, RawNode.rect, h]
    · intro h
      simp only [RawNode.nodes] at h
      simp [Node.ofRaw, Node.coords, RawNode.rect, RawNode.deco_rect,
        List.isEmpty_iff, h]
    · intro h
      simp only [RawNode.floating_nodes] at h
      simp [Node.ofRaw, Node.nodes, RawNode.nodes, h, Node.ofRawList,
        Node.ofRawList_eq_nil]

/-- Witness for `of_raw_effective_position` at a branch raw node with one
tiled child, `rect = (7, 50)`, `deco_rect = (0, 4)`. -/
theorem of_raw_effective_position_witness :
    (Node.ofRaw (RawNode.mk 3 none .con false [] ⟨7, 50⟩ ⟨0, 4⟩
        [RawNode.mk 4 (some "w") .con true [] ⟨7, 54⟩ ⟨0, 0⟩ [] []] [])).coords.x = 7 ∧
    (Node.ofRaw (RawNode.mk 3 none .con false [] ⟨7, 50⟩ ⟨0, 4⟩
        [RawNode.mk 4 (some "w") .con true [] ⟨7, 54⟩ ⟨0, 0⟩ [] []] [])).coords.y = 50 - 4 ∧
    ((Node.ofRaw (RawNode.mk 3 none .con false [] ⟨7, 50⟩ ⟨0, 4⟩
        [RawNode.mk 4 (some "w") .con true [] ⟨7, 54⟩ ⟨0, 0⟩ [] []] [])).nodes = [] ↔
      (RawNode.mk 3 none .con false [] ⟨7, 50⟩ ⟨0, 4⟩
        [RawNode.mk 4 (some "w") .con true [] ⟨7, 54⟩ ⟨0, 0⟩ [] []] [] : RawNode).nodes = []) := by
  have h := of_raw_effective_position (RawNode.mk 3 none .con false [] ⟨7, 50⟩ ⟨0, 4⟩
    [RawNode.mk 4 (some "w") .con true [] ⟨7, 54⟩ ⟨0, 0⟩ [] []] [])
  exact ⟨h.1, h.2.2.1 (by simp [RawNode.nodes]), h.2.2.2 rfl⟩

theorem findWorkspace_ok_type :
    ∀ (n w : RawNode), findWorkspace n = Except.ok w → w.node_type = .workspace := by
  intro n
  induction n using findWorkspace.induct with
  | case1 n h =>
    intro w hw
    rw [findWorkspace, if_pos h] at hw
    cases hw
    exact h
  | case2 n h hfoc =>
    intro w hw
    rw [findWorkspace, if_neg h, hfoc] at hw
    cases hw
  | case3 n h fid hfoc hfind =>
    intro w hw
    rw [findWorkspace, if_neg h, hfoc] at hw
    split at hw
    · rename_i heq
      cases heq
    · rename_i c heq
      injection heq with hfc
      subst hfc
      split at hw
      · cases hw
      · rename_i c2 heq2
        rw [hfind] at heq2
        cases heq2
  | case4 n h fid hfoc c hfind ih =>
    intro w hw
    rw [findWorkspace, if_neg h, hfoc] at hw
    split at hw
    · rename_i heq
      cases heq
    · rename_i c' heq
      injection heq with hfc
      subst hfc
      split at hw
      · rename_i heq2
        rw [hfind] at heq2
        cases heq2
      · rename_i c2 heq2
        rw [hfind] at heq2
        injection heq2 with hc2
        subst hc2
        exact ih w hw

/-- C8: one hop of the active-workspace locator: at a workspace-typed node the
walk stops and returns the node; at any other node it errors with
`noFocusedPath` exactly when the `focus` list is empty, errors with
`focusedChildMissing` exactly when the reported focused-child id matches no
child in `nodes`, and otherwise descends to the matching child; every `ok`
result of the whole walk is a workspace-typed subtree. -/
theorem find_workspace_spec (n : RawNode) :
    (n.node_type = .workspace → findWorkspace n = Except.ok n) ∧
    (n.node_type ≠ .workspace → n.focus = [] →
      findWorkspace n = Except.error .noFocusedPath) ∧
    (∀ fid rest, n.node_type ≠ .workspace → n.focus = fid :: rest →
      n.nodes.find? (fun c => c.id == fid) = none →
      findWorkspace n = Except.error .focusedChildMissing) ∧
    (∀ fid rest c, n.node_type ≠ .workspace → n.focus = fid :: rest →
      n.nodes.find? (fun c => c.id == fid) = some c →
      findWorkspace n = findWorkspace c) ∧
    (∀ w, findWorkspace n = Except.ok w → w.node_type = .workspace) := by
  refine ⟨?_, ?_, ?_, ?_, findWorkspace_ok_type n⟩
  · intro h
    rw [findWorkspace, if_pos h]
  · intro h hfoc
    rw [findWorkspace, if_neg h, hfoc]
    rfl
  · intro fid rest h hfoc hfind
    rw [findWorkspace, if_neg h, hfoc]
    simp only [List.head?_cons]
    split
    · rfl
    · rename_i c heq
      rw [hfind] at heq
      cases heq
  · intro fid rest c h hfoc hfind
    rw [findWorkspace, if_neg h, hfoc]
    simp only [List.head?_cons]
    split
    · rename_i heq
      rw [hfind] at heq
      cases heq
    · rename_i c' heq
      rw [hfind] at heq
      injection heq with hc
      subst hc
      rfl

/-- Witness for `find_workspace_spec`: a two-hop chain root → output →
workspace whose `focus` ids match, plus an output node with empty `focus`
(`noFocusedPath`) and one whose focused id is dangling
(`focusedChildMissing`). -/
theorem find_workspace_spec_witness :
    findWorkspace (RawNode.mk 10 none .root false [20] ⟨0, 0⟩ ⟨0, 0⟩
        [RawNode.mk 20 none .output false [30] ⟨0, 0⟩ ⟨0, 0⟩
          [RawNode.mk 30 (some "1") .workspace false [] ⟨0, 0⟩ ⟨0, 0⟩ [] []] []] []) =
      Except.ok (RawNode.mk 30 (some "1") .workspace false [] ⟨0, 0⟩ ⟨0, 0⟩ [] []) ∧
    findWorkspace (RawNode.mk 11 none .output false [] ⟨0, 0⟩ ⟨0, 0⟩ [] []) =
      Except.error .noFocusedPath ∧
    findWorkspace (RawNode.mk 12 none .output false [99] ⟨0, 0⟩ ⟨0, 0⟩ [] []) =
      Except.error .focusedChildMissing := by
  refine ⟨?_, ?_, ?_⟩
  · have h1 := (find_workspace_spec (RawNode.mk 10 none .root false [20] ⟨0, 0⟩ ⟨0, 0⟩
      [RawNode.mk 20 none .output false [30] ⟨0, 0⟩ ⟨0, 0⟩
        [RawNode.mk 30 (some "1") .workspace false [] ⟨0, 0⟩ ⟨0, 0⟩ [] []] []] [])).2.2.2.1
      20 []
      (RawNode.mk 20 none .output false [30] ⟨0, 0⟩ ⟨0, 0⟩
        [RawNode.mk 30 (some "1") .workspace false [] ⟨0, 0⟩ ⟨0, 0⟩ [] []] [])
      (by decide) rfl rfl
    have h2 := (find_workspace_spec (RawNode.mk 20 none .output false [30] ⟨0, 0⟩ ⟨0, 0⟩
      [RawNode.mk 30 (some "1") .workspace false [] ⟨0, 0⟩ ⟨0, 0⟩ [] []] [])).2.2.2.1
      30 []
      (RawNode.mk 30 (some "1") .workspace false [] ⟨0, 0⟩ ⟨0, 0⟩ [] [])
      (by decide) rfl rfl
    have h3 := (find_workspace_spec
      (RawNode.mk 30 (some "1") .workspace false [] ⟨0, 0⟩ ⟨0, 0⟩ [] [])).1 rfl
    rw [h1, h2, h3]
  · exact (find_workspace_spec (RawNode.mk 11 none .output false [] ⟨0, 0⟩ ⟨0, 0⟩ [] [])).2.1
      (by decide) rfl
  · exact (find_workspace_spec (RawNode.mk 12 none .output false [99] ⟨0, 0⟩ ⟨0, 0⟩ [] [])).2.2.1
      99 [] (by decide) rfl (by simp [List.find?])

end SwayWindowNav
